import Mathlib

set_option maxRecDepth 1000000

/-!
Verification development for the statistical core of `scripts/import_suppfiles.py`:
run-length encoding (`rle`), histogram-shape classification (`get_hist_class`),
the pi0 estimator (`estimate_pi0`), the conversion lookup (`conversion`) and the
per-table orchestration (`summarise_pvalues`).

Numeric values (Python floats) are modelled as rationals; numpy integer arrays as
`List Int` / `List Nat`; raised exceptions as `Except PyErr`.  The scipy smoothing
spline used in the multi-lambda branch of `estimate_pi0` is an external library
call; it is modelled as an explicit function parameter (`smoother`) of the
estimator.
-/

deriving instance DecidableEq for Except

/-- Python exception kinds that the embedded code can raise. -/
inductive PyErr
  | assertionError
  | valueError
  | notImplementedError
  | typeError
  | keyError
  | indexError
  | nameError
  | numpyError
deriving DecidableEq, Repr

/-- np.min of a list; the value at [] is irrelevant (numpy raises there, which is
modelled explicitly at each call site). -/
def listMin : List ℚ → ℚ
  | [] => 0
  | x :: xs => xs.foldl min x

/-- np.max of a list; the value at [] is irrelevant (numpy raises there). -/
def listMax : List ℚ → ℚ
  | [] => 0
  | x :: xs => xs.foldl max x

/-- np.diff: pairwise differences x[1:] - x[:-1]. -/
def npDiff (l : List Int) : List Int := List.zipWith (fun a b => a - b) l.tail l

/-- np.cumsum: partial sums, same length as the input. -/
def cumsum (l : List Int) : List Int := (l.scanl (· + ·) 0).tail

/-- The start positions p = np.cumsum(np.append(0, z))[:-1] computed by rle from
the run lengths z. -/
def npStarts (z : List Int) : List Int := (cumsum (0 :: z)).dropLast

/-- i = np.append(np.where(ia[1:] != ia[:-1]), n - 1) from rle: the 0-based
positions where the next element differs, followed by the last index. -/
def runEnds [DecidableEq α] (ia : List α) : List ℕ :=
  ((List.range (ia.length - 1)).filter (fun j => decide (ia[j+1]? ≠ ia[j]?))) ++ [ia.length - 1]

/-- The source's rle: run length encoding returning
(runlengths, startpositions, values), or none for the (None, None, None)
returned on empty input. -/
def rle [DecidableEq α] [Inhabited α] (inarray : List α) :
    Option (List Int × List Int × List α) :=
  if inarray.length = 0 then none
  else
    let i := runEnds inarray
    let z := npDiff ((-1 : Int) :: i.map (fun j => (Nat.cast j : Int)))
    some (z, npStarts z, i.map (fun j => inarray.getD j default))

/-- Binomial(n, p) probability mass at k. -/
def binomPmf (n : ℕ) (p : ℚ) (k : ℕ) : ℚ :=
  (n.choose k : ℚ) * p ^ k * (1 - p) ^ (n - k)

/-- Binomial(n, p) cumulative distribution at k. -/
def binomCdf (n : ℕ) (p : ℚ) (k : ℕ) : ℚ :=
  ((List.range (k+1)).map (binomPmf n p)).sum

/-- scipy.stats.binom.ppf q n p for q in (0, 1]: the least k with cdf(k) >= q
(scipy returns it as a float; the comparison counts > qc below is exact since
qc carries an integer value). -/
def binomPpf (q : ℚ) (n : ℕ) (p : ℚ) : ℕ :=
  ((List.range (n+1)).filter (fun k => decide (q ≤ binomCdf n p k))).headD n

/-- rle(mask)[0][0]: the length of the first run of the mask (the mask is
nonempty whenever the classifier evaluates this). -/
def firstRunLen (mask : List Bool) : ℕ :=
  match rle mask with
  | some (z, _, _) => (z.headD 0).toNat
  | none => 0

/-- The loop body of get_hist_class: a pure function of the over-threshold mask,
with the four branches in source order. -/
def classifyMask (mask : List Bool) : String :=
  if mask.all (fun b => !b) then "uniform"
  else if !((mask.drop (firstRunLen mask + 2)).any (fun b => b)) then "anti-conservative"
  else if !((mask.reverse.drop (firstRunLen mask.reverse + 2)).any (fun b => b)) then "conservative"
  else "other"

/-- get_hist_class: threshold qc = binom.ppf(1 - 1/breaks * fdr, sum(counts), 1/breaks),
mask = counts > qc, then a for-loop over the mask re-assigning Class each
iteration; on an empty counts vector the loop never runs and the final
`return Class` raises NameError (the variable is unbound). -/
def get_hist_class (counts : List ℕ) (breaks : ℕ) (fdr : ℚ) : Except PyErr String :=
  let qc := binomPpf (1 - 1 / (breaks : ℚ) * fdr) counts.sum (1 / (breaks : ℚ))
  let mask := counts.map (fun c => decide (qc < c))
  mask.foldl (fun _ _ => .ok (classifyMask mask)) (.error .nameError)

/-- scipy.arange(0, 0.9 + 1e-8, 0.05): the default lambda grid 0, 0.05, ..., 0.9. -/
def defaultLambdas : List ℚ := (List.range 19).map (fun i => (i : ℚ) / 20)

/-- np.mean(pv >= lam): the fraction of entries that are >= lam. -/
def meanGE (pv : List ℚ) (lam : ℚ) : ℚ :=
  ((pv.filter (fun x => decide (lam ≤ x))).length : ℚ) / (pv.length : ℚ)

/-- The final `assert pi0 >= 0 and pi0 <= 1` of estimate_pi0. -/
def pyAssertRange (x : ℚ) : Except PyErr ℚ :=
  if 0 ≤ x ∧ x ≤ 1 then .ok x else .error .assertionError

/-- estimate_pi0 between the initial range assert and the final bounds assert:
input validation, then the pi0-override / single-lambda / lambda-grid branches.
The scipy spline fit-and-evaluate of the smoother branch (splrep followed by
splev at max(lambdas), smooth_log_pi0 being False at every call site) is the
external `smoother` parameter, applied to the grid and the raw pi0 estimates. -/
def estimate_pi0_core (smoother : List ℚ → List ℚ → ℚ) (pv : List ℚ)
    (lambdas : List ℚ) (pi0Arg : Option ℚ) (method : String) : Except PyErr ℚ :=
  if ¬ (0 ≤ listMin pv ∧ listMax pv ≤ 1) then .error .assertionError
  else if 1 < lambdas.length ∧ lambdas.length < 4 then .error .valueError
  else if 1 ≤ lambdas.length ∧ (listMin lambdas < 0 ∨ 1 ≤ listMax lambdas) then .error .valueError
  else
    match pi0Arg with
    | some p => .ok p
    | none =>
      if lambdas.length = 1 then
        .ok (min (meanGE pv (lambdas.headD 0) / (1 - lambdas.headD 0)) 1)
      else if method = "smoother" then
        let v := min (smoother lambdas (lambdas.map (fun lam => meanGE pv lam / (1 - lam)))) 1
        .ok (if 1 < v then 1 else v)
      else if method = "bootstrap" then .error .notImplementedError
      else .error .typeError

/-- estimate_pi0: np.min on an empty array raises before the assert; a None
lambdas argument selects the default grid; every normal exit passes the final
bounds assert. -/
def estimate_pi0 (smoother : List ℚ → List ℚ → ℚ) (pv : List ℚ)
    (lambdasArg : Option (List ℚ) := none) (pi0Arg : Option ℚ := none)
    (method : String := "smoother") : Except PyErr ℚ :=
  if pv.length = 0 then .error .numpyError
  else (estimate_pi0_core smoother pv (lambdasArg.getD defaultLambdas) pi0Arg method).bind pyAssertRange

/-- The rows of the conversion DataFrame (orient="index": key = row label). -/
def conversionTable : List (String × List String) :=
  [("uniform", ["same good", "improve, effects", "worsen", "worsen"]),
   ("anti-conservative", ["effects lost", "same good", "worsen", "worsen"]),
   ("conservative", ["improvement, no effects", "improvement, effects", "same bad", "no improvement"]),
   ("other", ["improvement, no effects", "improvement, effects", "no improvement", "same bad"])]

/-- The column labels of the conversion DataFrame. -/
def conversionColumns : List String :=
  ["uniform", "anti-conservative", "conservative", "other"]

/-- conversion(x, y) = classes.loc[x, y]: row x, column y; none models the
KeyError pandas raises on a missing label. -/
def conversion (x y : String) : Option String := do
  let row ← conversionTable.lookup x
  let j ← conversionColumns.findIdx? (fun c => c == y)
  row.get? j

/-- A p-value table as summarise_pvalue_tables hands it to summarise_pvalues:
the pvalue column plus the optional expression-level covariate columns. -/
structure PTable where
  pvalue : List ℚ
  cov : List (String × List ℚ)
deriving DecidableEq, Repr

/-- The PValSum record (namedtuple fields Type, Class, Conversion, pi0,
FDR_pval, hist, note), absent values modelled by the defaults. -/
structure PValSum where
  type : List String := []
  Class : List String := []
  Conversion : Option String := none
  pi0 : List (Option ℚ) := []
  FDR_pval : List ℕ := []
  hist : List (List ℕ) := []
  note : Option String := none
deriving DecidableEq, Repr

/-- The default var dict of summarise_pvalues
{"basemean": 10, "fpkm": 0.5, "logcpm": np.log2(0.5), "rpkm": 0.5}
(np.log2(0.5) is exactly -1). -/
def defaultVar : List (String × ℚ) :=
  [("basemean", 10), ("fpkm", 1/2), ("logcpm", -1), ("rpkm", 1/2)]

/-- np.linspace(0, 1, breaks): breaks evenly spaced points from 0 to 1. -/
def linspace01 (breaks : ℕ) : List ℚ :=
  (List.range breaks).map (fun i => (i : ℚ) / ((breaks : ℚ) - 1))

/-- np.histogram counts for the given bin edges: bins are right-open except the
last, which is closed; values outside the edge range are not counted. -/
def npHistogram (xs : List ℚ) (edges : List ℚ) : List ℕ :=
  (List.range (edges.length - 1)).map (fun i =>
    (xs.filter (fun x =>
      decide (edges.getD i 0 ≤ x) &&
        (if i = edges.length - 2 then decide (x ≤ edges.getD (i+1) 0)
         else decide (x < edges.getD (i+1) 0)))).length)

/-- The covariate-filter loop of summarise_pvalues: the first configured
variable present among the table's columns wins (loop with break); the result
pairs the matched name with df.loc[df[k] >= v, ["pvalue"]]. -/
def selectFilter (df : PTable) (var : List (String × ℚ)) : Option (String × List ℚ) :=
  match var.find? (fun kv => (df.cov.lookup kv.1).isSome) with
  | some (k, v) =>
      some (k, ((df.pvalue.zip ((df.cov.lookup k).getD [])).filter
        (fun q => decide (v ≤ q.2))).map (fun q => q.1))
  | none => none

/-- truncated = rle([i == 0 for i in counts[0]])[1][-1] > 0; the none case of
rle covers the exceptions Python raises here (counts[0] on an empty list, or
subscripting the None rle returns on an empty mask). -/
def truncatedCheck (counts0 : List ℕ) : Except PyErr Bool :=
  match rle (counts0.map (fun c => decide (c = 0))) with
  | some (_, p, _) => .ok (decide (0 < p.getLastD 0))
  | none => .error .indexError

/-- conv = conversion(Class[0], Class[1]) when two classes exist, np.nan
otherwise. -/
def conversionStep (cls : List String) : Except PyErr (Option String) :=
  if cls.length = 2 then
    match conversion (cls.getD 0 "") (cls.getD 1 "") with
    | some s => .ok (some s)
    | none => .error .keyError
  else .ok none

/-- The pi0 loop of summarise_pvalues: estimate_pi0 with all defaults on the
classes eligible for estimation, np.nan (none) otherwise. -/
def pi0Step (smoother : List ℚ → List ℚ → ℚ) (sets : List (List ℚ))
    (cls : List String) : Except PyErr (List (Option ℚ)) :=
  (sets.zip cls).mapM (fun sc =>
    if sc.2 = "uniform" ∨ sc.2 = "anti-conservative" then
      (estimate_pi0 smoother sc.1).map (fun v => some v)
    else pure none)

/-- pv_sets = [i for i in [df, pf] if not i.empty]: the full p-value series
and the threshold-passing subset, keeping only the nonempty ones. -/
def pvSets (df : PTable) (var : List (String × ℚ)) : List (List ℚ) :=
  [df.pvalue, ((selectFilter df var).map (fun s => s.2)).getD []].filter (fun s => !s.isEmpty)

/-- The tail of summarise_pvalues after the truncation test: classification,
conversion, pi0 estimation, FDR effect counts, assembly.  Exceptions raised
half-way propagate as .error. -/
def summariseRest (smoother : List ℚ → List ℚ → ℚ) (pv_sets : List (List ℚ))
    (counts : List (List ℕ)) (breaks : ℕ) (fdr : ℚ) (filtName : Option String) :
    Except PyErr PValSum :=
  match counts.mapM (fun c => get_hist_class c breaks fdr) with
  | .error e => .error e
  | .ok cls =>
    match conversionStep cls with
    | .error e => .error e
    | .ok conv =>
      match pi0Step smoother pv_sets cls with
      | .error e => .error e
      | .ok pi0s =>
        .ok { type := if cls.length = 2 then ["raw", filtName.getD ""] else ["raw"],
              Class := cls, Conversion := conv, pi0 := pi0s,
              FDR_pval := pv_sets.map (fun s => (s.filter (fun x => decide (x < fdr))).length),
              hist := counts, note := none }

/-- The body of summarise_pvalues after the range test: binning with edges
np.linspace(0, 1, breaks), the truncation test on the raw counts, then the
rest of the pipeline. -/
def summariseBody (smoother : List ℚ → List ℚ → ℚ) (df : PTable)
    (breaks : ℕ) (fdr : ℚ) (var : List (String × ℚ)) : Except PyErr PValSum :=
  match truncatedCheck (((pvSets df var).map
      (fun s => npHistogram s (linspace01 breaks))).headD []) with
  | .error e => .error e
  | .ok true => .ok { note := some "p-values are truncated" }
  | .ok false =>
      summariseRest smoother (pvSets df var)
        ((pvSets df var).map (fun s => npHistogram s (linspace01 breaks))) breaks fdr
        ((selectFilter df var).map (fun s => s.1))

/-- summarise_pvalues: range test (with the source's exact condition
`not df.min()["pvalue"] >= 0 and df.max()["pvalue"] <= 1`), then the body. -/
def summarise_pvalues (smoother : List ℚ → List ℚ → ℚ) (df : PTable)
    (breaks : ℕ := 30) (fdr : ℚ := 1/20) (var : List (String × ℚ) := defaultVar) :
    Except PyErr PValSum :=
  if ¬ (0 ≤ listMin df.pvalue) ∧ listMax df.pvalue ≤ 1 then
    .ok { note := some "p-values not in 0 to 1 range" }
  else summariseBody smoother df breaks fdr var

/-- A concrete stand-in for the scipy spline oracle, used to instantiate
theorems at closed inputs. -/
def zeroSmoother : List ℚ → List ℚ → ℚ := fun _ _ => 0

/-! ## Helper lemmas about the numpy reductions -/

lemma foldl_min_le_init (l : List ℚ) : ∀ a : ℚ, l.foldl min a ≤ a := by
  induction l with
  | nil => intro a; exact le_refl a
  | cons x xs ih => intro a; exact le_trans (ih (min a x)) (min_le_left a x)

lemma foldl_min_le_mem (l : List ℚ) : ∀ (a x : ℚ), x ∈ l → l.foldl min a ≤ x := by
  induction l with
  | nil => intro a x hx; cases hx
  | cons y ys ih =>
      intro a x hx
      rcases List.mem_cons.mp hx with h | h
      · subst h; exact le_trans (foldl_min_le_init ys (min a x)) (min_le_right a x)
      · exact ih (min a y) x h

lemma le_foldl_min (l : List ℚ) : ∀ (a b : ℚ), b ≤ a → (∀ x ∈ l, b ≤ x) → b ≤ l.foldl min a := by
  induction l with
  | nil => intro a b h _; exact h
  | cons y ys ih =>
      intro a b h hall
      exact ih (min a y) b (le_min h (hall y (List.mem_cons_self y ys)))
        (fun x hx => hall x (List.mem_cons_of_mem y hx))

lemma listMin_le_of_mem {l : List ℚ} {x : ℚ} (hx : x ∈ l) : listMin l ≤ x := by
  cases l with
  | nil => cases hx
  | cons y ys =>
      rcases List.mem_cons.mp hx with h | h
      · subst h; exact foldl_min_le_init ys x
      · exact foldl_min_le_mem ys y x h

lemma le_listMin {l : List ℚ} {b : ℚ} (hne : l ≠ []) (h : ∀ x ∈ l, b ≤ x) : b ≤ listMin l := by
  cases l with
  | nil => exact absurd rfl hne
  | cons y ys =>
      exact le_foldl_min ys y b (h y (List.mem_cons_self y ys))
        (fun x hx => h x (List.mem_cons_of_mem y hx))

lemma init_le_foldl_max (l : List ℚ) : ∀ a : ℚ, a ≤ l.foldl max a := by
  induction l with
  | nil => intro a; exact le_refl a
  | cons x xs ih => intro a; exact le_trans (le_max_left a x) (ih (max a x))

lemma mem_le_foldl_max (l : List ℚ) : ∀ (a x : ℚ), x ∈ l → x ≤ l.foldl max a := by
  induction l with
  | nil => intro a x hx; cases hx
  | cons y ys ih =>
      intro a x hx
      rcases List.mem_cons.mp hx with h | h
      · subst h; exact le_trans (le_max_right a x) (init_le_foldl_max ys (max a x))
      · exact ih (max a y) x h

lemma foldl_max_le (l : List ℚ) : ∀ (a b : ℚ), a ≤ b → (∀ x ∈ l, x ≤ b) → l.foldl max a ≤ b := by
  induction l with
  | nil => intro a b h _; exact h
  | cons y ys ih =>
      intro a b h hall
      exact ih (max a y) b (max_le h (hall y (List.mem_cons_self y ys)))
        (fun x hx => hall x (List.mem_cons_of_mem y hx))

lemma foldl_max_lt (l : List ℚ) : ∀ (a b : ℚ), a < b → (∀ x ∈ l, x < b) → l.foldl max a < b := by
  induction l with
  | nil => intro a b h _; exact h
  | cons y ys ih =>
      intro a b h hall
      exact ih (max a y) b (max_lt h (hall y (List.mem_cons_self y ys)))
        (fun x hx => hall x (List.mem_cons_of_mem y hx))

lemma le_listMax {l : List ℚ} {x : ℚ} (hx : x ∈ l) : x ≤ listMax l := by
  cases l with
  | nil => cases hx
  | cons y ys =>
      rcases List.mem_cons.mp hx with h | h
      · subst h; exact init_le_foldl_max ys x
      · exact mem_le_foldl_max ys y x h

lemma listMax_le {l : List ℚ} {b : ℚ} (hne : l ≠ []) (h : ∀ x ∈ l, x ≤ b) : listMax l ≤ b := by
  cases l with
  | nil => exact absurd rfl hne
  | cons y ys =>
      exact foldl_max_le ys y b (h y (List.mem_cons_self y ys))
        (fun x hx => h x (List.mem_cons_of_mem y hx))

lemma listMax_lt {l : List ℚ} {b : ℚ} (hne : l ≠ []) (h : ∀ x ∈ l, x < b) : listMax l < b := by
  cases l with
  | nil => exact absurd rfl hne
  | cons y ys =>
      exact foldl_max_lt ys y b (h y (List.mem_cons_self y ys))
        (fun x hx => h x (List.mem_cons_of_mem y hx))

lemma foldl_const_of_ne_nil {β : Type u} {γ : Type v} (c : γ) :
    ∀ (l : List β) (a : γ), l ≠ [] → l.foldl (fun _ _ => c) a = c := by
  intro l
  induction l with
  | nil => intro a h; exact absurd rfl h
  | cons x xs ih =>
      intro a _
      show xs.foldl (fun _ _ => c) c = c
      cases xs with
      | nil => rfl
      | cons y ys => exact ih c (List.cons_ne_nil y ys)

/-! ## Helper lemmas about estimate_pi0 -/

lemma meanGE_nonneg (pv : List ℚ) (lam : ℚ) : 0 ≤ meanGE pv lam := by
  unfold meanGE
  exact div_nonneg (Nat.cast_nonneg _) (Nat.cast_nonneg _)

lemma meanGE_div_nonneg (pv : List ℚ) (lam : ℚ) (h1 : lam < 1) :
    0 ≤ meanGE pv lam / (1 - lam) := by
  exact div_nonneg (meanGE_nonneg pv lam) (by linarith)

lemma pyAssertRange_of_bounds {x : ℚ} (h0 : 0 ≤ x) (h1 : x ≤ 1) :
    pyAssertRange x = .ok x := by
  unfold pyAssertRange
  rw [if_pos ⟨h0, h1⟩]

lemma estimate_pi0_core_checks_pass (smoother : List ℚ → List ℚ → ℚ) (pv : List ℚ)
    (lambdas : List ℚ) (pi0Arg : Option ℚ) (method : String)
    (hmin : 0 ≤ listMin pv) (hmax : listMax pv ≤ 1)
    (hlam : ∀ l ∈ lambdas, 0 ≤ l ∧ l < 1)
    (hlen : lambdas.length = 1 ∨ 4 ≤ lambdas.length) :
    estimate_pi0_core smoother pv lambdas pi0Arg method =
      match pi0Arg with
      | some p => .ok p
      | none =>
        if lambdas.length = 1 then
          .ok (min (meanGE pv (lambdas.headD 0) / (1 - lambdas.headD 0)) 1)
        else if method = "smoother" then
          let v := min (smoother lambdas (lambdas.map (fun lam => meanGE pv lam / (1 - lam)))) 1
          .ok (if 1 < v then 1 else v)
        else if method = "bootstrap" then .error .notImplementedError
        else .error .typeError := by
  unfold estimate_pi0_core
  rw [if_neg (not_not_intro ⟨hmin, hmax⟩), if_neg, if_neg]
  · rintro ⟨-, hbad | hbad⟩
    · rcases hlen with h1 | h4
      · obtain ⟨l0, rfl⟩ := List.length_eq_one.mp h1
        have : listMin [l0] = l0 := rfl
        rw [this] at hbad
        exact absurd hbad (not_lt.mpr (hlam l0 (List.mem_cons_self l0 [])).1)
      · have hne : lambdas ≠ [] := by
          intro h; rw [h] at h4; simp at h4
        have : 0 ≤ listMin lambdas := le_listMin hne (fun l hl => (hlam l hl).1)
        exact absurd hbad (not_lt.mpr this)
    · rcases hlen with h1 | h4
      · obtain ⟨l0, rfl⟩ := List.length_eq_one.mp h1
        have : listMax [l0] = l0 := rfl
        rw [this] at hbad
        exact absurd hbad (not_le.mpr (hlam l0 (List.mem_cons_self l0 [])).2)
      · have hne : lambdas ≠ [] := by
          intro h; rw [h] at h4; simp at h4
        have : listMax lambdas < 1 := listMax_lt hne (fun l hl => (hlam l hl).2)
        exact absurd hbad (not_le.mpr this)
  · rintro ⟨hgt, hlt⟩
    rcases hlen with h1 | h4 <;> omega

lemma estimate_pi0_core_single (smoother : List ℚ → List ℚ → ℚ) (pv : List ℚ)
    (lam : ℚ) (method : String)
    (hmin : 0 ≤ listMin pv) (hmax : listMax pv ≤ 1) (h0 : 0 ≤ lam) (h1 : lam < 1) :
    estimate_pi0_core smoother pv [lam] none method =
      .ok (min (meanGE pv lam / (1 - lam)) 1) := by
  rw [estimate_pi0_core_checks_pass smoother pv [lam] none method hmin hmax
    (by rintro l hl; rcases List.mem_cons.mp hl with h | h
        · subst h; exact ⟨h0, h1⟩
        · cases h)
    (Or.inl rfl)]
  simp

lemma estimate_pi0_core_grid (smoother : List ℚ → List ℚ → ℚ) (pv : List ℚ)
    (lambdas : List ℚ) (hmin : 0 ≤ listMin pv) (hmax : listMax pv ≤ 1)
    (hlam : ∀ l ∈ lambdas, 0 ≤ l ∧ l < 1) (h4 : 4 ≤ lambdas.length) :
    estimate_pi0_core smoother pv lambdas none "smoother" =
      .ok (min (smoother lambdas (lambdas.map (fun lam => meanGE pv lam / (1 - lam)))) 1) := by
  rw [estimate_pi0_core_checks_pass smoother pv lambdas none "smoother" hmin hmax hlam (Or.inr h4)]
  have h1ne : ¬ lambdas.length = 1 := by omega
  have hv : ¬ (1 : ℚ) < min (smoother lambdas (lambdas.map (fun lam => meanGE pv lam / (1 - lam)))) 1 :=
    not_lt.mpr (min_le_right _ _)
  simp [h1ne, hv]

/-! ## Claim theorems about estimate_pi0 -/

/-- Claim C6: estimate_pi0 fails with a validation error (the range assert)
whenever some p-value is < 0 or > 1; with p-values valid, it fails with a
configuration error (ValueError) whenever the lambda grid has length 2 or 3,
and whenever some lambda is < 0 or >= 1.  The validation assert precedes the
lambda checks, so the first clause holds for every lambda grid. -/
theorem estimate_pi0_error_conditions (smoother : List ℚ → List ℚ → ℚ)
    (pv : List ℚ) (lambdas : List ℚ) (pi0Arg : Option ℚ) (method : String) :
    ((∃ x ∈ pv, x < 0 ∨ 1 < x) →
      estimate_pi0 smoother pv (some lambdas) pi0Arg method = .error .assertionError) ∧
    ((∀ x ∈ pv, 0 ≤ x ∧ x ≤ 1) → pv ≠ [] → (lambdas.length = 2 ∨ lambdas.length = 3) →
      estimate_pi0 smoother pv (some lambdas) pi0Arg method = .error .valueError) ∧
    ((∀ x ∈ pv, 0 ≤ x ∧ x ≤ 1) → pv ≠ [] → (∃ l ∈ lambdas, l < 0 ∨ 1 ≤ l) →
      estimate_pi0 smoother pv (some lambdas) pi0Arg method = .error .valueError) := by
  refine ⟨?_, ?_, ?_⟩
  · rintro ⟨x, hxmem, hx⟩
    have hne : pv ≠ [] := List.ne_nil_of_mem hxmem
    have hlen0 : ¬ pv.length = 0 := by simpa [List.length_eq_zero] using hne
    have hfail : ¬ (0 ≤ listMin pv ∧ listMax pv ≤ 1) := by
      rintro ⟨hmin, hmax⟩
      rcases hx with hx | hx
      · exact absurd (le_trans hmin (listMin_le_of_mem hxmem)) (not_le.mpr hx)
      · exact absurd hx (not_lt.mpr (le_trans (le_listMax hxmem) hmax))
    have hcore : estimate_pi0_core smoother pv lambdas pi0Arg method = .error .assertionError := by
      unfold estimate_pi0_core
      rw [if_pos hfail]
    unfold estimate_pi0
    rw [if_neg hlen0]
    simp only [Option.getD_some]
    rw [hcore]
    rfl
  · intro hval hne h23
    have hlen0 : ¬ pv.length = 0 := by simpa [List.length_eq_zero] using hne
    have hmin : 0 ≤ listMin pv := le_listMin hne (fun x hx => (hval x hx).1)
    have hmax : listMax pv ≤ 1 := listMax_le hne (fun x hx => (hval x hx).2)
    have hcore : estimate_pi0_core smoother pv lambdas pi0Arg method = .error .valueError := by
      unfold estimate_pi0_core
      rw [if_neg (not_not_intro ⟨hmin, hmax⟩), if_pos (by rcases h23 with h | h <;> constructor <;> omega)]
    unfold estimate_pi0
    rw [if_neg hlen0]
    simp only [Option.getD_some]
    rw [hcore]
    rfl
  · rintro hval hne ⟨l, hlmem, hbad⟩
    have hlen0 : ¬ pv.length = 0 := by simpa [List.length_eq_zero] using hne
    have hmin : 0 ≤ listMin pv := le_listMin hne (fun x hx => (hval x hx).1)
    have hmax : listMax pv ≤ 1 := listMax_le hne (fun x hx => (hval x hx).2)
    have hlne : lambdas ≠ [] := List.ne_nil_of_mem hlmem
    have hl1 : 1 ≤ lambdas.length := List.length_pos.mpr hlne
    have hcore : estimate_pi0_core smoother pv lambdas pi0Arg method = .error .valueError := by
      unfold estimate_pi0_core
      rw [if_neg (not_not_intro ⟨hmin, hmax⟩)]
      by_cases h23 : 1 < lambdas.length ∧ lambdas.length < 4
      · rw [if_pos h23]
      · rw [if_neg h23, if_pos]
        refine ⟨hl1, ?_⟩
        rcases hbad with hb | hb
        · exact Or.inl (lt_of_le_of_lt (listMin_le_of_mem hlmem) hb)
        · exact Or.inr (le_trans hb (le_listMax hlmem))
    unfold estimate_pi0
    rw [if_neg hlen0]
    simp only [Option.getD_some]
    rw [hcore]
    rfl

/-- Witness for C6: all three error conditions at concrete inputs. -/
theorem estimate_pi0_error_conditions_witness :
    estimate_pi0 zeroSmoother [2] (some []) none "smoother" = .error .assertionError ∧
    estimate_pi0 zeroSmoother [1/2] (some [0, 1/2]) none "smoother" = .error .valueError ∧
    estimate_pi0 zeroSmoother [1/2] (some [2]) none "smoother" = .error .valueError :=
  ⟨(estimate_pi0_error_conditions zeroSmoother [2] [] none "smoother").1
      ⟨2, by with_unfolding_all decide, by with_unfolding_all decide⟩,
   (estimate_pi0_error_conditions zeroSmoother [1/2] [0, 1/2] none "smoother").2.1
      (by with_unfolding_all decide) (by with_unfolding_all decide) (by with_unfolding_all decide),
   (estimate_pi0_error_conditions zeroSmoother [1/2] [2] none "smoother").2.2
      (by with_unfolding_all decide) (by with_unfolding_all decide)
      ⟨2, by with_unfolding_all decide, by with_unfolding_all decide⟩⟩

/-- Claim C7: with valid nonempty p-values, a single lambda in [0, 1) and no
pi0 override, estimate_pi0 returns min(mean(pv >= lambda) / (1 - lambda), 1). -/
theorem estimate_pi0_single_lambda (smoother : List ℚ → List ℚ → ℚ) (method : String)
    (pv : List ℚ) (lam : ℚ) (hne : pv ≠ []) (hval : ∀ x ∈ pv, 0 ≤ x ∧ x ≤ 1)
    (h0 : 0 ≤ lam) (h1 : lam < 1) :
    estimate_pi0 smoother pv (some [lam]) none method =
      .ok (min (meanGE pv lam / (1 - lam)) 1) := by
  have hlen0 : ¬ pv.length = 0 := by simpa [List.length_eq_zero] using hne
  have hmin : 0 ≤ listMin pv := le_listMin hne (fun x hx => (hval x hx).1)
  have hmax : listMax pv ≤ 1 := listMax_le hne (fun x hx => (hval x hx).2)
  unfold estimate_pi0
  rw [if_neg hlen0]
  simp only [Option.getD_some]
  rw [estimate_pi0_core_single smoother pv lam method hmin hmax h0 h1]
  show pyAssertRange (min (meanGE pv lam / (1 - lam)) 1) = _
  rw [pyAssertRange_of_bounds (le_min (meanGE_div_nonneg pv lam h1) zero_le_one) (min_le_right _ _)]

/-- Witness for C7 at pv = [1/2, 3/4], lambda = 1/2 (the value is
min(1 / (1/2), 1) = 1). -/
theorem estimate_pi0_single_lambda_witness :
    estimate_pi0 zeroSmoother [1/2, 3/4] (some [1/2]) none "smoother" =
      .ok (min (meanGE [1/2, 3/4] (1/2) / (1 - 1/2)) 1) :=
  estimate_pi0_single_lambda zeroSmoother "smoother" [1/2, 3/4] (1/2)
    (by with_unfolding_all decide) (by with_unfolding_all decide)
    (by with_unfolding_all decide) (by with_unfolding_all decide)

/-- Claim C9 (counterexample): with p-values in [0, 1] and a valid lambda grid
but a pi0 override of 2, the final bounds assert fails, so the
invariant-violation branch is reachable for inputs satisfying the claim's
preconditions. -/
theorem estimate_pi0_assert_reachable :
    estimate_pi0 zeroSmoother [1/2] (some [1/2]) (some 2) "smoother" = .error .assertionError := by
  with_unfolding_all decide

/-- Claim C9 (amended): whenever estimate_pi0 returns normally its result is in
[0, 1]; and the invariant-violation branch is unreachable for inputs satisfying
the preconditions with no pi0 override, provided the smoothing-spline value is
nonnegative in the grid case (vacuous for a single lambda). -/
theorem estimate_pi0_range_postcondition :
    (∀ (smoother : List ℚ → List ℚ → ℚ) (pv : List ℚ) (lambdasArg : Option (List ℚ))
        (pi0Arg : Option ℚ) (method : String) (r : ℚ),
        estimate_pi0 smoother pv lambdasArg pi0Arg method = .ok r → 0 ≤ r ∧ r ≤ 1) ∧
    (∀ (smoother : List ℚ → List ℚ → ℚ) (pv : List ℚ) (lambdas : List ℚ),
        pv ≠ [] → (∀ x ∈ pv, 0 ≤ x ∧ x ≤ 1) → (∀ l ∈ lambdas, 0 ≤ l ∧ l < 1) →
        (lambdas.length = 1 ∨ 4 ≤ lambdas.length) →
        0 ≤ smoother lambdas (lambdas.map (fun lam => meanGE pv lam / (1 - lam))) →
        ∃ r, estimate_pi0 smoother pv (some lambdas) none "smoother" = .ok r) := by
  constructor
  · intro smoother pv lambdasArg pi0Arg method r h
    unfold estimate_pi0 at h
    by_cases hl : pv.length = 0
    · rw [if_pos hl] at h; simp at h
    · rw [if_neg hl] at h
      cases hcore : estimate_pi0_core smoother pv (lambdasArg.getD defaultLambdas) pi0Arg method with
      | error e =>
          rw [hcore] at h
          exact Except.noConfusion (h : (Except.error e : Except PyErr ℚ) = .ok r)
      | ok v =>
          rw [hcore] at h
          have h' : pyAssertRange v = .ok r := h
          unfold pyAssertRange at h'
          by_cases hb : 0 ≤ v ∧ v ≤ 1
          · rw [if_pos hb] at h'
            injection h' with hvr
            subst hvr
            exact hb
          · rw [if_neg hb] at h'; cases h'
  · intro smoother pv lambdas hne hval hlam hlen hsm
    have hlen0 : ¬ pv.length = 0 := by simpa [List.length_eq_zero] using hne
    have hmin : 0 ≤ listMin pv := le_listMin hne (fun x hx => (hval x hx).1)
    have hmax : listMax pv ≤ 1 := listMax_le hne (fun x hx => (hval x hx).2)
    unfold estimate_pi0
    rw [if_neg hlen0]
    simp only [Option.getD_some]
    rcases hlen with h1 | h4
    · obtain ⟨l0, rfl⟩ := List.length_eq_one.mp h1
      have hl0 := hlam l0 (List.mem_cons_self l0 [])
      refine ⟨min (meanGE pv l0 / (1 - l0)) 1, ?_⟩
      rw [estimate_pi0_core_single smoother pv l0 "smoother" hmin hmax hl0.1 hl0.2]
      show pyAssertRange (min (meanGE pv l0 / (1 - l0)) 1) = _
      rw [pyAssertRange_of_bounds (le_min (meanGE_div_nonneg pv l0 hl0.2) zero_le_one) (min_le_right _ _)]
    · refine ⟨min (smoother lambdas (lambdas.map (fun lam => meanGE pv lam / (1 - lam)))) 1, ?_⟩
      rw [estimate_pi0_core_grid smoother pv lambdas hmin hmax hlam h4]
      show pyAssertRange (min (smoother lambdas (lambdas.map (fun lam => meanGE pv lam / (1 - lam)))) 1) = _
      rw [pyAssertRange_of_bounds (le_min hsm zero_le_one) (min_le_right _ _)]

/-- Witness for C9 (amended): a valid 4-point grid with the concrete zero
smoother yields a normal return. -/
theorem estimate_pi0_range_postcondition_witness :
    ∃ r, estimate_pi0 zeroSmoother [1/2] (some [0, 1/20, 1/10, 3/20]) none "smoother" = .ok r :=
  estimate_pi0_range_postcondition.2 zeroSmoother [1/2] [0, 1/20, 1/10, 3/20]
    (by with_unfolding_all decide) (by with_unfolding_all decide)
    (by with_unfolding_all decide) (by with_unfolding_all decide)
    (by with_unfolding_all decide)

/-! ## Claim theorems about the conversion matrix and summarise_pvalues -/

/-- Claim C5: the conversion lookup is total over the 16 class pairs, each
result is one of the documented labels, and the two highlighted entries are
(uniform, uniform) = "same good" and (conservative, anti-conservative) =
"improvement, effects". -/
theorem conversion_total_and_examples :
    (conversionColumns.all (fun x => conversionColumns.all (fun y =>
      (conversion x y).isSome))) = true ∧
    (conversionColumns.all (fun x => conversionColumns.all (fun y =>
      decide (((conversion x y).getD "") ∈
        ["same good", "improve, effects", "worsen", "effects lost",
         "improvement, no effects", "improvement, effects", "same bad",
         "no improvement"])))) = true ∧
    conversion "uniform" "uniform" = some "same good" ∧
    conversion "conservative" "anti-conservative" = some "improvement, effects" := by
  refine ⟨by decide, by decide, by decide, by decide⟩

/-- Claim C1: the range validation of summarise_pvalues does not catch a table
whose p-values exceed 1.  The source condition
`not df.min()["pvalue"] >= 0 and df.max()["pvalue"] <= 1` parses as
`(not min >= 0) and (max <= 1)`, which is False for pvalue = [2]; the table
flows on to binning and classification (all-empty bins classify as uniform)
and then crashes with an AssertionError inside estimate_pi0, instead of
returning the terminal record with Note = "p-values not in 0 to 1 range". -/
theorem summarise_pvalues_above_one_not_caught :
    summarise_pvalues zeroSmoother ⟨[2], []⟩ 30 (1/20) defaultVar = .error .assertionError := by
  with_unfolding_all decide

/-- Claim C3: with breaks = 5 the bin edges np.linspace(0, 1, breaks) delimit
only 4 bins, so a validated table of 4 evenly spread p-values produces a
normal summary record whose histogram count vector has length 4 (not breaks),
while the counts still sum to the number of p-values. -/
theorem summarise_pvalues_hist_length_breaks_minus_one :
    ∃ r, summarise_pvalues zeroSmoother ⟨[1/8, 3/8, 5/8, 7/8], []⟩ 5 (1/20) defaultVar = .ok r ∧
      r.note = none ∧ r.hist.map List.length = [4] ∧ r.hist.map (fun h => h.sum) = [4] :=
  ⟨{ type := ["raw"], Class := ["uniform"], Conversion := none, pi0 := [some 0],
     FDR_pval := [0], hist := [[1, 1, 1, 1]], note := none },
   by with_unfolding_all decide, by with_unfolding_all decide,
   by with_unfolding_all decide, by with_unfolding_all decide⟩

/-! ## Run length encoding: a recursive characterisation of rle -/

/-- Proof-auxiliary recursive run-length encoding of a list into
(run length, run value) pairs, first run first. -/
def rleRec [DecidableEq α] : List α → List (ℕ × α)
  | [] => []
  | a :: as =>
    match rleRec as with
    | [] => [(1, a)]
    | (n, b) :: rest => if a = b then (n + 1, b) :: rest else (1, a) :: (n, b) :: rest

/-- The run lengths of a rleRec encoding, as numpy int64 values. -/
def recLengths {α : Type u} (runs : List (ℕ × α)) : List Int :=
  runs.map (fun r => (r.1 : Int))

/-- The run values of a rleRec encoding. -/
def recValues {α : Type u} (runs : List (ℕ × α)) : List α :=
  runs.map (fun r => r.2)

lemma rleRec_cons_shape [DecidableEq α] (a : α) (as : List α) :
    ∃ n rest, rleRec (a :: as) = (n, a) :: rest ∧ 1 ≤ n := by
  cases h : rleRec as with
  | nil => exact ⟨1, [], by simp [rleRec, h], le_refl 1⟩
  | cons p rest =>
      obtain ⟨n, b⟩ := p
      by_cases hab : a = b
      · subst hab
        exact ⟨n + 1, rest, by simp [rleRec, h], by omega⟩
      · exact ⟨1, (n, b) :: rest, by simp [rleRec, h, hab], le_refl 1⟩

lemma rleRec_join [DecidableEq α] (l : List α) :
    ((rleRec l).map (fun r => List.replicate r.1 r.2)).flatten = l := by
  induction l with
  | nil => rfl
  | cons a as ih =>
      cases h : rleRec as with
      | nil =>
          have has : as = [] := by
            cases as with
            | nil => rfl
            | cons c cs =>
                obtain ⟨n, rest, hshape, -⟩ := rleRec_cons_shape c cs
                rw [hshape] at h
                cases h
          subst has
          simp [rleRec]
      | cons p rest =>
          obtain ⟨n, b⟩ := p
          rw [h] at ih
          by_cases hab : a = b
          · subst hab
            simp only [rleRec, h, eq_self_iff_true, if_true]
            rw [List.map_cons, List.flatten_cons, List.replicate_succ, List.cons_append]
            rw [List.map_cons, List.flatten_cons] at ih
            rw [ih]
          · simp only [rleRec, h, if_neg hab]
            rw [List.map_cons, List.flatten_cons]
            rw [ih]
            rfl

lemma rleRec_sum_lengths [DecidableEq α] (l : List α) :
    ((rleRec l).map (fun r => r.1)).sum = l.length := by
  have h := congrArg List.length (rleRec_join l)
  rw [List.length_flatten, List.map_map] at h
  simpa [Function.comp_def, List.length_replicate] using h

lemma rleRec_pos [DecidableEq α] (l : List α) : ∀ r ∈ rleRec l, 1 ≤ r.1 := by
  induction l with
  | nil => intro r hr; cases hr
  | cons a as ih =>
      intro r hr
      cases h : rleRec as with
      | nil =>
          simp only [rleRec, h] at hr
          rcases List.mem_cons.mp hr with h1 | h1
          · subst h1; exact le_refl 1
          · cases h1
      | cons p rest =>
          obtain ⟨n, b⟩ := p
          by_cases hab : a = b
          · subst hab
            simp only [rleRec, h, eq_self_iff_true, if_true] at hr
            rcases List.mem_cons.mp hr with h1 | h1
            · subst h1; omega
            · exact ih r (h ▸ List.mem_cons_of_mem (n, a) h1)
          · simp only [rleRec, h, if_neg hab] at hr
            rcases List.mem_cons.mp hr with h1 | h1
            · subst h1; exact le_refl 1
            · exact ih r (h ▸ h1)

lemma npDiff_cons_cons (x y : Int) (l : List Int) :
    npDiff (x :: y :: l) = (y - x) :: npDiff (y :: l) := rfl

lemma npDiff_map_add (c : Int) : ∀ l : List Int, npDiff (l.map (· + c)) = npDiff l := by
  intro l
  induction l with
  | nil => rfl
  | cons x xs ih =>
      cases xs with
      | nil => rfl
      | cons y ys =>
          show ((y + c) - (x + c)) :: npDiff ((y :: ys).map (· + c)) = (y - x) :: npDiff (y :: ys)
          rw [ih]
          congr 1
          ring

lemma runEnds_shape [DecidableEq α] (l : List α) : ∃ e es, runEnds l = e :: es := by
  unfold runEnds
  cases h : (List.range (l.length - 1)).filter (fun j => decide (l[j+1]? ≠ l[j]?)) with
  | nil => exact ⟨l.length - 1, [], rfl⟩
  | cons f fs => exact ⟨f, fs ++ [l.length - 1], rfl⟩

lemma runEnds_singleton [DecidableEq α] (a : α) : runEnds [a] = [0] := rfl

lemma runEnds_cons [DecidableEq α] (a c : α) (cs : List α) :
    runEnds (a :: c :: cs) = (if c = a then [] else [0]) ++ (runEnds (c :: cs)).map (· + 1) := by
  unfold runEnds
  simp only [List.length_cons, Nat.add_sub_cancel]
  rw [List.range_succ_eq_map, List.filter_cons, List.filter_map]
  have hpred : List.filter ((fun j => decide ((a :: c :: cs)[j+1]? ≠ (a :: c :: cs)[j]?)) ∘ Nat.succ)
        (List.range cs.length) =
      List.filter (fun j => decide ((c :: cs)[j+1]? ≠ (c :: cs)[j]?)) (List.range cs.length) := by
    apply List.filter_congr
    intro j _
    simp only [Function.comp_apply, Nat.succ_eq_add_one, List.getElem?_cons_succ]
  rw [hpred]
  have hsucc : List.map Nat.succ
        (List.filter (fun j => decide ((c :: cs)[j+1]? ≠ (c :: cs)[j]?)) (List.range cs.length)) =
      List.map (· + 1)
        (List.filter (fun j => decide ((c :: cs)[j+1]? ≠ (c :: cs)[j]?)) (List.range cs.length)) := by
    apply List.map_congr_left
    intro j _
    exact Nat.succ_eq_add_one j
  by_cases hca : c = a
  · subst hca
    have h0 : (decide ((c :: c :: cs)[0+1]? ≠ (c :: c :: cs)[0]?)) = false := by simp
    rw [h0, if_neg (by simp : ¬ (false = true)), if_pos rfl, List.nil_append, List.map_append]
    rw [hsucc]
    simp
  · have h0 : (decide ((a :: c :: cs)[0+1]? ≠ (a :: c :: cs)[0]?)) = true := by simp [hca]
    rw [h0, if_pos rfl, if_neg hca, List.map_append]
    rw [hsucc]
    simp

lemma castNat_map_add_one (L : List ℕ) :
    (L.map (· + 1)).map (fun j => (Nat.cast j : Int)) =
      (L.map (fun j => (Nat.cast j : Int))).map (· + 1) := by
  rw [List.map_map, List.map_map]
  apply List.map_congr_left
  intro j _
  simp [Function.comp]

lemma npDiff_neg_one_shift (x : Int) (L : List Int) :
    npDiff ((-1 : Int) :: ((x :: L).map (· + 1))) = (x + 2) :: npDiff (x :: L) := by
  have h1 : npDiff ((-1 : Int) :: ((x :: L).map (· + 1))) =
      ((x + 1) - (-1)) :: npDiff ((x :: L).map (· + 1)) := rfl
  rw [h1, npDiff_map_add]
  congr 1
  ring

lemma npDiff_neg_one_zero_shift (x : Int) (L : List Int) :
    npDiff ((-1 : Int) :: 0 :: ((x :: L).map (· + 1))) = 1 :: (x + 1) :: npDiff (x :: L) := by
  have h1 : npDiff ((-1 : Int) :: 0 :: ((x :: L).map (· + 1))) =
      (0 - (-1)) :: ((x + 1) - 0) :: npDiff ((x :: L).map (· + 1)) := rfl
  rw [h1, npDiff_map_add]
  norm_num

lemma rle_bridge [DecidableEq α] [Inhabited α] :
    ∀ l : List α, l ≠ [] →
      npDiff ((-1 : Int) :: (runEnds l).map (fun j => (Nat.cast j : Int))) = recLengths (rleRec l) ∧
      (runEnds l).map (fun j => l.getD j default) = recValues (rleRec l) := by
  intro l
  induction l with
  | nil => intro h; exact absurd rfl h
  | cons a as ih =>
      intro _
      cases as with
      | nil => exact ⟨rfl, rfl⟩
      | cons c cs =>
          obtain ⟨ihz, ihv⟩ := ih (List.cons_ne_nil c cs)
          obtain ⟨e, es, hre⟩ := runEnds_shape (c :: cs)
          obtain ⟨n, rest, hrr, -⟩ := rleRec_cons_shape c cs
          rw [hre, hrr] at ihz ihv
          have ihz' : ((Nat.cast e : Int) - (-1)) ::
                npDiff ((Nat.cast e : Int) :: es.map (fun j => (Nat.cast j : Int))) =
              (Nat.cast n : Int) :: recLengths rest := ihz
          injection ihz' with he0 hrest
          have he : (Nat.cast e : Int) + 1 = (Nat.cast n : Int) := by linarith [he0]
          by_cases hac : a = c
          · subst hac
            have hrr2 : rleRec (a :: a :: cs) = (n + 1, a) :: rest := by
              have hu : rleRec (a :: a :: cs) =
                  match rleRec (a :: cs) with
                  | [] => [(1, a)]
                  | (m, b) :: r2 => if a = b then (m + 1, b) :: r2 else (1, a) :: (m, b) :: r2 := rfl
              rw [hu, hrr]
              show (if a = a then (n + 1, a) :: rest else (1, a) :: (n, a) :: rest) = (n + 1, a) :: rest
              rw [if_pos rfl]
            constructor
            · rw [hrr2, runEnds_cons a a cs, if_pos rfl, List.nil_append, hre,
                castNat_map_add_one (e :: es),
                show (e :: es).map (fun j => (Nat.cast j : Int)) =
                  (Nat.cast e : Int) :: es.map (fun j => (Nat.cast j : Int)) from rfl,
                npDiff_neg_one_shift (Nat.cast e : Int) (es.map (fun j => (Nat.cast j : Int))), hrest,
                show recLengths ((n + 1, a) :: rest) =
                  (Nat.cast (n + 1) : Int) :: recLengths rest from rfl]
              congr 1
              push_cast
              linarith [he]
            · rw [hrr2, runEnds_cons a a cs, if_pos rfl, List.nil_append, hre, List.map_map]
              have hmc : (e :: es).map ((fun j => (a :: a :: cs).getD j default) ∘ (· + 1)) =
                  (e :: es).map (fun j => (a :: cs).getD j default) := by
                apply List.map_congr_left
                intro j _
                simp [Function.comp, List.getD_cons_succ]
              rw [hmc, ihv]
              rfl
          · have hrr2 : rleRec (a :: c :: cs) = (1, a) :: (n, c) :: rest := by
              have hu : rleRec (a :: c :: cs) =
                  match rleRec (c :: cs) with
                  | [] => [(1, a)]
                  | (m, b) :: r2 => if a = b then (m + 1, b) :: r2 else (1, a) :: (m, b) :: r2 := rfl
              rw [hu, hrr]
              show (if a = c then (n + 1, c) :: rest else (1, a) :: (n, c) :: rest) =
                (1, a) :: (n, c) :: rest
              rw [if_neg hac]
            have hca' : ¬ (c = a) := fun h => hac h.symm
            constructor
            · rw [hrr2, runEnds_cons a c cs, if_neg hca', hre]
              show npDiff ((-1 : Int) :: (0 : Int) ::
                  ((e :: es).map (· + 1)).map (fun j => (Nat.cast j : Int))) =
                recLengths ((1, a) :: (n, c) :: rest)
              rw [castNat_map_add_one (e :: es),
                show (e :: es).map (fun j => (Nat.cast j : Int)) =
                  (Nat.cast e : Int) :: es.map (fun j => (Nat.cast j : Int)) from rfl,
                npDiff_neg_one_zero_shift (Nat.cast e : Int) (es.map (fun j => (Nat.cast j : Int))),
                hrest, he,
                show recLengths ((1, a) :: (n, c) :: rest) =
                  (Nat.cast 1 : Int) :: (Nat.cast n : Int) :: recLengths rest from rfl]
              norm_num
            · rw [hrr2, runEnds_cons a c cs, if_neg hca', hre,
                show ([0] ++ (e :: es).map (· + 1)) = (0 : ℕ) :: (e :: es).map (· + 1) from rfl]
              show (a :: c :: cs).getD 0 default ::
                  ((e :: es).map (· + 1)).map (fun j => (a :: c :: cs).getD j default) =
                recValues ((1, a) :: (n, c) :: rest)
              rw [List.map_map]
              have hmc : (e :: es).map ((fun j => (a :: c :: cs).getD j default) ∘ (· + 1)) =
                  (e :: es).map (fun j => (c :: cs).getD j default) := by
                apply List.map_congr_left
                intro j _
                simp [Function.comp, List.getD_cons_succ]
              rw [hmc, ihv]
              rfl

lemma rle_eq_rec [DecidableEq α] [Inhabited α] (l : List α) (h : l ≠ []) :
    rle l = some (recLengths (rleRec l), npStarts (recLengths (rleRec l)), recValues (rleRec l)) := by
  obtain ⟨hz, hv⟩ := rle_bridge l h
  unfold rle
  rw [if_neg (by simpa [List.length_eq_zero] using h)]
  show some (npDiff ((-1 : Int) :: (runEnds l).map (fun j => (Nat.cast j : Int))),
      npStarts (npDiff ((-1 : Int) :: (runEnds l).map (fun j => (Nat.cast j : Int)))),
      (runEnds l).map (fun j => l.getD j default)) = _
  rw [hz, hv]

lemma npStarts_eq_scanl (z : List Int) : npStarts z = (z.scanl (· + ·) 0).dropLast := by
  unfold npStarts cumsum
  rw [List.scanl_cons]
  simp

lemma chain_lt_scanl : ∀ (z : List Int) (c : Int), (∀ x ∈ z, 0 < x) →
    List.Chain' (· < ·) (z.scanl (· + ·) c) := by
  intro z
  induction z with
  | nil => intro c _; exact List.chain'_singleton c
  | cons x xs ih =>
      intro c hall
      rw [List.scanl_cons, List.singleton_append, List.chain'_cons']
      constructor
      · intro y hy
        have hhead : (List.scanl (· + ·) (c + x) xs).head? = some (c + x) := by
          cases xs <;> rfl
        rw [hhead, Option.mem_def] at hy
        injection hy with hy
        have hx := hall x (List.mem_cons_self x xs)
        linarith [hy, hx]
      · exact ih (c + x) (fun t ht => hall t (List.mem_cons_of_mem x ht))

lemma chain_lt_dropLast : ∀ l : List Int, List.Chain' (· < ·) l → List.Chain' (· < ·) l.dropLast := by
  intro l
  induction l with
  | nil => intro _; simp
  | cons x xs ih =>
      intro h
      cases xs with
      | nil => simp
      | cons y ys =>
          rw [List.chain'_cons] at h
          cases ys with
          | nil => simp
          | cons w ws =>
              rw [List.dropLast_cons₂, List.dropLast_cons₂, List.chain'_cons]
              refine ⟨h.1, ?_⟩
              have h2 := ih h.2
              rwa [List.dropLast_cons₂] at h2

lemma npStarts_chain (z : List Int) (hz : ∀ x ∈ z, 0 < x) : List.Chain' (· < ·) (npStarts z) := by
  rw [npStarts_eq_scanl]
  exact chain_lt_dropLast _ (chain_lt_scanl z 0 hz)

lemma npStarts_length (z : List Int) : (npStarts z).length = z.length := by
  rw [npStarts_eq_scanl, List.length_dropLast, List.length_scanl]
  omega

lemma sum_map_natCast (l : List ℕ) :
    (l.map (fun n => (Nat.cast n : Int))).sum = Nat.cast l.sum := by
  induction l with
  | nil => rfl
  | cons x xs ih =>
      rw [List.map_cons, List.sum_cons, ih, List.sum_cons, Nat.cast_add]

lemma recLengths_sum [DecidableEq α] (l : List α) :
    (recLengths (rleRec l)).sum = (Nat.cast l.length : Int) := by
  have h1 : recLengths (rleRec l) =
      ((rleRec l).map (fun r => r.1)).map (fun n => (Nat.cast n : Int)) := by
    rw [List.map_map]
    rfl
  rw [h1, sum_map_natCast, rleRec_sum_lengths]

lemma recLengths_pos [DecidableEq α] (l : List α) :
    ∀ x ∈ recLengths (rleRec l), (0 : Int) < x := by
  intro x hx
  unfold recLengths at hx
  obtain ⟨r, hr, rfl⟩ := List.mem_map.mp hx
  have h1 := rleRec_pos l r hr
  exact Int.natCast_pos.mpr (by omega)

lemma zipWith_map_same {α : Type u} {β : Type v} {γ : Type w} {δ : Type x}
    (f : β → γ → δ) (g : α → β) (h : α → γ) :
    ∀ l : List α, List.zipWith f (l.map g) (l.map h) = l.map (fun r => f (g r) (h r)) := by
  intro l
  induction l with
  | nil => rfl
  | cons a as ih =>
      show f (g a) (h a) :: List.zipWith f (as.map g) (as.map h) = _
      rw [ih]
      rfl

/-- Claim C4: for every nonempty sequence, rle returns parallel
(lengths, starts, values) with the reconstruction property (concatenating each
value repeated its run length reproduces the input), sum of lengths equal to
the input length, strictly increasing start positions, and equal lengths of
the three components; the empty sequence yields the absent result (None)
without raising. -/
theorem rle_spec {α : Type} [DecidableEq α] [Inhabited α] (ia : List α) :
    (ia = [] → rle ia = none) ∧
    (ia ≠ [] → ∃ z p v, rle ia = some (z, p, v) ∧
      (List.zipWith (fun zi vi => List.replicate zi.toNat vi) z v).flatten = ia ∧
      z.sum = (Nat.cast ia.length : Int) ∧
      List.Chain' (· < ·) p ∧
      z.length = v.length ∧ p.length = z.length) := by
  constructor
  · intro h
    subst h
    rfl
  · intro h
    refine ⟨recLengths (rleRec ia), npStarts (recLengths (rleRec ia)), recValues (rleRec ia),
      rle_eq_rec ia h, ?_, recLengths_sum ia, ?_, ?_, ?_⟩
    · have h1 : List.zipWith (fun zi vi => List.replicate zi.toNat vi)
          (recLengths (rleRec ia)) (recValues (rleRec ia)) =
          (rleRec ia).map (fun r => List.replicate r.1 r.2) := by
        unfold recLengths recValues
        rw [zipWith_map_same]
        apply List.map_congr_left
        intro r _
        simp
      rw [h1, rleRec_join]
    · exact npStarts_chain _ (recLengths_pos ia)
    · unfold recLengths recValues
      rw [List.length_map, List.length_map]
    · rw [npStarts_length]

/-- Witness for C4: rle at the empty list and at [true, true, false]. -/
theorem rle_spec_witness :
    rle ([] : List Bool) = none ∧
    (∃ z p v, rle [true, true, false] = some (z, p, v) ∧
      (List.zipWith (fun zi vi => List.replicate zi.toNat vi) z v).flatten = [true, true, false] ∧
      z.sum = (Nat.cast ([true, true, false] : List Bool).length : Int) ∧
      List.Chain' (· < ·) p ∧
      z.length = v.length ∧ p.length = z.length) :=
  ⟨(rle_spec ([] : List Bool)).1 rfl, (rle_spec [true, true, false]).2 (by decide)⟩

/-! ## Claim theorems about get_hist_class -/

lemma get_hist_class_eq (counts : List ℕ) (breaks : ℕ) (fdr : ℚ) (h : counts ≠ []) :
    get_hist_class counts breaks fdr =
      .ok (classifyMask (counts.map (fun c =>
        decide (binomPpf (1 - 1 / (breaks : ℚ) * fdr) counts.sum (1 / (breaks : ℚ)) < c)))) := by
  unfold get_hist_class
  apply foldl_const_of_ne_nil
  simpa using h

lemma classifyMask_mem (mask : List Bool) :
    classifyMask mask ∈ ["uniform", "anti-conservative", "conservative", "other"] := by
  unfold classifyMask
  split_ifs <;> simp

lemma classifyMask_all_false {mask : List Bool} (h : ∀ b ∈ mask, b = false) :
    classifyMask mask = "uniform" := by
  unfold classifyMask
  rw [if_pos]
  rw [List.all_eq_true]
  intro b hb
  rw [h b hb]
  rfl

/-- Claim C8: on every non-empty counts vector with breaks >= 2 and fdr in
(0, 1), the classifier returns exactly one of the four labels, the same one on
every evaluation, and returns "uniform" whenever no bin exceeds the binomial
quantile threshold. -/
theorem get_hist_class_total (counts : List ℕ) (breaks : ℕ) (fdr : ℚ)
    (h1 : counts ≠ []) (h2 : 2 ≤ breaks) (h3 : 0 < fdr) (h4 : fdr < 1) :
    ∃ cl, get_hist_class counts breaks fdr = .ok cl ∧
      cl ∈ ["uniform", "anti-conservative", "conservative", "other"] ∧
      (∀ cl', get_hist_class counts breaks fdr = .ok cl' → cl' = cl) ∧
      ((∀ c ∈ counts, c ≤ binomPpf (1 - 1 / (breaks : ℚ) * fdr) counts.sum (1 / (breaks : ℚ))) →
        cl = "uniform") := by
  refine ⟨classifyMask (counts.map (fun c =>
      decide (binomPpf (1 - 1 / (breaks : ℚ) * fdr) counts.sum (1 / (breaks : ℚ)) < c))),
    get_hist_class_eq counts breaks fdr h1, classifyMask_mem _, ?_, ?_⟩
  · intro cl' hcl'
    rw [get_hist_class_eq counts breaks fdr h1] at hcl'
    injection hcl' with hres
    exact hres.symm
  · intro hall
    apply classifyMask_all_false
    intro b hb
    obtain ⟨c, hc, rfl⟩ := List.mem_map.mp hb
    exact decide_eq_false (not_lt.mpr (hall c hc))

/-- Witness for C8 at counts = [1, 1], breaks = 2, fdr = 1/2 (the threshold is
qc = 1, no bin is over, so the label is uniform). -/
theorem get_hist_class_total_witness :
    ∃ cl, get_hist_class [1, 1] 2 (1/2) = .ok cl ∧
      cl ∈ ["uniform", "anti-conservative", "conservative", "other"] ∧
      (∀ cl', get_hist_class [1, 1] 2 (1/2) = .ok cl' → cl' = cl) ∧
      ((∀ c ∈ [1, 1], c ≤ binomPpf (1 - 1 / ((2 : ℕ) : ℚ) * (1/2))
          ([1, 1] : List ℕ).sum (1 / ((2 : ℕ) : ℚ))) → cl = "uniform") :=
  get_hist_class_total [1, 1] 2 (1/2) (by decide) (by omega)
    (by with_unfolding_all decide) (by with_unfolding_all decide)

lemma rleRec_replicate [DecidableEq α] (a : α) :
    ∀ k : ℕ, rleRec (List.replicate (k + 1) a) = [(k + 1, a)] := by
  intro k
  induction k with
  | zero => rfl
  | succ m ih =>
      have hu : List.replicate (m + 2) a = a :: List.replicate (m + 1) a := rfl
      rw [hu]
      have hm : rleRec (a :: List.replicate (m + 1) a) =
          match rleRec (List.replicate (m + 1) a) with
          | [] => [(1, a)]
          | (n, b) :: rest => if a = b then (n + 1, b) :: rest else (1, a) :: (n, b) :: rest := rfl
      rw [hm, ih]
      show (if a = a then (m + 1 + 1, a) :: [] else (1, a) :: (m + 1, a) :: []) = [(m + 2, a)]
      rw [if_pos rfl]

lemma firstRunLen_replicate_true (k : ℕ) :
    firstRunLen (List.replicate (k + 1) true) = k + 1 := by
  unfold firstRunLen
  rw [rle_eq_rec _ (by simp), rleRec_replicate]
  simp [recLengths]

lemma classifyMask_all_true {mask : List Bool} (hne : mask ≠ []) (h : ∀ b ∈ mask, b = true) :
    classifyMask mask = "anti-conservative" := by
  obtain ⟨k, hk⟩ : ∃ k, mask.length = k + 1 := by
    cases mask with
    | nil => exact absurd rfl hne
    | cons b bs => exact ⟨bs.length, rfl⟩
  have hrep : mask = List.replicate (k + 1) true := by
    have hr := List.eq_replicate_of_mem h
    rwa [hk] at hr
  subst hrep
  unfold classifyMask
  have h1 : ¬ ((List.replicate (k + 1) true).all (fun b => !b) = true) := by
    rw [List.all_eq_true]
    intro hc
    have hc' := hc true (by simp)
    simp at hc'
  have h2 : (!((List.replicate (k + 1) true).drop
      (firstRunLen (List.replicate (k + 1) true) + 2)).any (fun b => b)) = true := by
    rw [firstRunLen_replicate_true, List.drop_eq_nil_of_le]
    · rfl
    · rw [List.length_replicate]
      omega
  rw [if_neg h1, if_pos h2]

/-- Claim C10: when every bin count exceeds the binomial quantile threshold
(the over-mask is all True), the first run covers the whole mask, no over bin
remains after skipping it plus 2 positions, and the classifier returns
"anti-conservative". -/
theorem get_hist_class_all_over (counts : List ℕ) (breaks : ℕ) (fdr : ℚ)
    (h1 : counts ≠ [])
    (h2 : ∀ c ∈ counts, binomPpf (1 - 1 / (breaks : ℚ) * fdr) counts.sum (1 / (breaks : ℚ)) < c) :
    get_hist_class counts breaks fdr = .ok "anti-conservative" := by
  rw [get_hist_class_eq counts breaks fdr h1]
  congr 1
  apply classifyMask_all_true
  · simpa using h1
  · intro b hb
    obtain ⟨c, hc, rfl⟩ := List.mem_map.mp hb
    exact decide_eq_true (h2 c hc)

/-- Witness for C10 at counts = [5], breaks = 30, fdr = 1/20 (the threshold is
qc = 2 and 5 > 2). -/
theorem get_hist_class_all_over_witness :
    get_hist_class [5] 30 (1/20) = .ok "anti-conservative" :=
  get_hist_class_all_over [5] 30 (1/20) (by decide) (by with_unfolding_all decide)

/-! ## Claim theorems about the truncation test of summarise_pvalues -/

lemma pvSets_cons (df : PTable) (var : List (String × ℚ)) (hne : df.pvalue ≠ []) :
    pvSets df var = df.pvalue ::
      ([((selectFilter df var).map (fun s => s.2)).getD []].filter (fun s => !s.isEmpty)) := by
  unfold pvSets
  rw [List.filter_cons]
  have h1 : df.pvalue.isEmpty = false := by
    cases h : df.pvalue with
    | nil => exact absurd h hne
    | cons x xs => rfl
  rw [h1]
  rfl

lemma summariseRest_note (smoother : List ℚ → List ℚ → ℚ) (pv_sets : List (List ℚ))
    (counts : List (List ℕ)) (breaks : ℕ) (fdr : ℚ) (filtName : Option String)
    (r : PValSum) (h : summariseRest smoother pv_sets counts breaks fdr filtName = .ok r) :
    r.note = none := by
  unfold summariseRest at h
  split at h
  · exact Except.noConfusion h
  · split at h
    · exact Except.noConfusion h
    · split at h
      · exact Except.noConfusion h
      · injection h with h4
        rw [← h4]

/-- Claim C2 (counterexample): a table whose raw histogram counts are
[5, 5, 5, 0, 0, 0] (a trailing zero run anchored at the end, which the claim
says must not be flagged) IS flagged by the code as truncated, because the
check tests the start of the last run of the zero-mask, not of the last
zero-run: the runs of the mask [F, F, F, T, T, T] start at 0 and 3, and 3 > 0. -/
theorem summarise_pvalues_truncation_counterexample :
    npHistogram [1/10, 1/10, 1/10, 1/10, 1/10, 1/4, 1/4, 1/4, 1/4, 1/4, 2/5, 2/5, 2/5, 2/5, 2/5]
      (linspace01 7) = [5, 5, 5, 0, 0, 0] ∧
    summarise_pvalues zeroSmoother
      ⟨[1/10, 1/10, 1/10, 1/10, 1/10, 1/4, 1/4, 1/4, 1/4, 1/4, 2/5, 2/5, 2/5, 2/5, 2/5], []⟩
      7 (1/20) defaultVar = .ok { note := some "p-values are truncated" } := by
  refine ⟨by with_unfolding_all decide, by with_unfolding_all decide⟩

/-- Claim C2 (amended): for a table passing validation, summarise_pvalues
returns the terminal record with Note = "p-values are truncated" exactly when
the start position of the last run (of either value) in the run-length
encoding of the raw counts' zero-mask is > 0; in particular raw counts
[0, 0, 0, 5, 5, 5, 0, 0, 0] are flagged (and so are [5, 5, 5, 0, 0, 0], see
the counterexample). -/
theorem summarise_pvalues_truncated_iff :
    (∀ (smoother : List ℚ → List ℚ → ℚ) (df : PTable) (breaks : ℕ) (fdr : ℚ)
        (var : List (String × ℚ)),
        df.pvalue ≠ [] → (∀ x ∈ df.pvalue, 0 ≤ x ∧ x ≤ 1) →
        ((∃ r, summarise_pvalues smoother df breaks fdr var = .ok r ∧
            r.note = some "p-values are truncated") ↔
          truncatedCheck (npHistogram df.pvalue (linspace01 breaks)) = .ok true)) ∧
    (npHistogram [7/20, 7/20, 7/20, 7/20, 7/20, 1/2, 1/2, 1/2, 1/2, 1/2, 3/5, 3/5, 3/5, 3/5, 3/5]
        (linspace01 10) = [0, 0, 0, 5, 5, 5, 0, 0, 0] ∧
      summarise_pvalues zeroSmoother
        ⟨[7/20, 7/20, 7/20, 7/20, 7/20, 1/2, 1/2, 1/2, 1/2, 1/2, 3/5, 3/5, 3/5, 3/5, 3/5], []⟩
        10 (1/20) defaultVar = .ok { note := some "p-values are truncated" }) := by
  constructor
  · intro smoother df breaks fdr var hne hval
    have hmin : 0 ≤ listMin df.pvalue := le_listMin hne (fun x hx => (hval x hx).1)
    have hcond : ¬ (¬ (0 ≤ listMin df.pvalue) ∧ listMax df.pvalue ≤ 1) := by
      rintro ⟨hc, -⟩
      exact hc hmin
    have hcounts : ((pvSets df var).map (fun s => npHistogram s (linspace01 breaks))).headD [] =
        npHistogram df.pvalue (linspace01 breaks) := by
      rw [pvSets_cons df var hne]
      rfl
    unfold summarise_pvalues
    rw [if_neg hcond]
    unfold summariseBody
    rw [hcounts]
    cases htr : truncatedCheck (npHistogram df.pvalue (linspace01 breaks)) with
    | error e =>
        constructor
        · rintro ⟨r, hr, -⟩
          exact Except.noConfusion hr
        · intro hh
          exact Except.noConfusion hh
    | ok b =>
        cases b with
        | true =>
            constructor
            · intro _
              rfl
            · intro _
              exact ⟨{ note := some "p-values are truncated" }, rfl, rfl⟩
        | false =>
            constructor
            · rintro ⟨r, hr, hnote⟩
              have hn := summariseRest_note smoother (pvSets df var)
                ((pvSets df var).map (fun s => npHistogram s (linspace01 breaks))) breaks fdr
                ((selectFilter df var).map (fun s => s.1)) r hr
              rw [hn] at hnote
              exact Option.noConfusion hnote
            · intro hh
              injection hh with hb
              exact Bool.noConfusion hb
  · refine ⟨by with_unfolding_all decide, by with_unfolding_all decide⟩

/-- Witness for C2 (amended) at a concrete table: pvalue = [1/2], breaks = 30. -/
theorem summarise_pvalues_truncated_iff_witness :
    (∃ r, summarise_pvalues zeroSmoother ⟨[1/2], []⟩ 30 (1/20) defaultVar = .ok r ∧
        r.note = some "p-values are truncated") ↔
      truncatedCheck (npHistogram [1/2] (linspace01 30)) = .ok true :=
  summarise_pvalues_truncated_iff.1 zeroSmoother ⟨[1/2], []⟩ 30 (1/20) defaultVar
    (by with_unfolding_all decide) (by with_unfolding_all decide)
